/-
Verification of the cuszplus f32 codec (src/src/cuszplus_f32.cu).

The development shallowly embeds the data-parallel codec: machine
`uint32_t` values are natural numbers reduced modulo `2 ^ 32` where
overflow can occur, `int32_t` values are integers wrapped into
`[-2^31, 2^31)` where the source performs 32-bit arithmetic, and the
float arithmetic of the quantizer is modelled over `ℚ` (the theorems
below only instantiate it at inputs on which every float operation of
the source is exact, such as small integers with epsilon = 1).
-/
import Mathlib

set_option maxRecDepth 20000

/-! ## Constants of the binary format (cuszplus_f32.cu lines 15-26) -/

def QUANT_GROUP_SIZE : ℕ := 32

def THREAD_GROUP_COUNT : ℕ := 4

def THREAD_FLOAT_COUNT : ℕ := THREAD_GROUP_COUNT * QUANT_GROUP_SIZE

def BLOCK_SIZE : ℕ := 256

def BLOCK_FLOAT_COUNT : ℕ := BLOCK_SIZE * THREAD_FLOAT_COUNT

def BLOCK_PARAM_COUNT : ℕ := BLOCK_SIZE * THREAD_GROUP_COUNT

def PARAM_SIZE : ℕ := 6

def kMagic : ℕ := 0xCA7DD007

def kHeaderBytes : ℕ := 12

/-- Value of C `sizeof(uint32_t)`, as used on line 463 of the source. -/
def sizeof_uint32 : ℕ := 4

/-- Modulus of 32-bit unsigned arithmetic. -/
def U32 : ℕ := 2 ^ 32

/-! ## Basic 32-bit helpers (cuszplus_f32.cu lines 187-200) -/

/-- Bit pattern (as an unsigned value) of an arbitrary-precision integer
truncated to 32 bits; models storing an `int32_t` into a `uint32_t`. -/
def toU32 (n : ℤ) : ℕ := (n % (2 ^ 32 : ℤ)).toNat

/-- Wrap an arbitrary-precision integer into the `int32_t` range,
modelling 32-bit signed overflow. -/
def toI32 (n : ℤ) : ℤ := (n + 2 ^ 31) % 2 ^ 32 - 2 ^ 31

/-- Binary length computed with explicit fuel (structurally recursive so
that every definition built on it evaluates inside the kernel); with fuel
32 it agrees with `Nat.size` on every 32-bit value, see
`size_fuel_eq_size`. -/
def size_fuel : ℕ → ℕ → ℕ
  | 0, _ => 0
  | fuel + 1, x => if x = 0 then 0 else size_fuel fuel (x / 2) + 1

/-- Binary length of a 32-bit value. -/
def size32 (x : ℕ) : ℕ := size_fuel 32 x

/-- Source `__clz` on a 32-bit value: leading-zero count. -/
def clz32 (x : ℕ) : ℕ := 32 - size32 x

/-- Source `bit_count` (line 187): `32 - __clz(x)`. -/
def bit_count (x : ℕ) : ℕ := 32 - clz32 x

/-- Source `zigzag_encode` (line 192): `(x << 1) ^ (x >> 31)` on `uint32_t`. -/
def zigzag_encode (x : ℕ) : ℕ := ((x <<< 1) ^^^ (x >>> 31)) % U32

/-- Source `zigzag_decode` (line 197): `(x >> 1) ^ -(x & 1)` read as `int32_t`.
For `x % 2 = 1` the xor with the all-ones pattern is two's-complement
negation minus one of `x >>> 1`. -/
def zigzag_decode (x : ℕ) : ℤ := if x % 2 = 1 then -((x >>> 1 : ℕ) : ℤ) - 1 else ((x >>> 1 : ℕ) : ℤ)

/-! ## Sequential accumulation

`sumUpTo f n` is the value of a running accumulator after the loop
iterations `0, …, n-1`, i.e. the exclusive prefix sum of `f` at `n`.
It models the `used_words +=` loop of the compress kernel, the CUB
`ExclusiveSum` result, and the `compressed_words += bits` cursor. -/

def sumUpTo (f : ℕ → ℕ) : ℕ → ℕ
  | 0 => 0
  | n + 1 => sumUpTo f n + f n

/-! ## Claim C2: which float each (worker, group, position) reads

Line 437 of the compress kernel:
`int float_index = thread_idx * THREAD_FLOAT_COUNT + j;`
(the group index `i` of the surrounding loop does not appear).
Line 683 of the decompress kernel:
`int float_index = block_float_start + i * QUANT_GROUP_SIZE + j;`
with `block_float_start = thread_idx * THREAD_FLOAT_COUNT`. -/

def compress_float_index (thread_idx i j : ℕ) : ℕ :=
  thread_idx * THREAD_FLOAT_COUNT + j

def decompress_float_index (thread_idx i j : ℕ) : ℕ :=
  thread_idx * THREAD_FLOAT_COUNT + i * QUANT_GROUP_SIZE + j

/-! ## Claims C3/C4: word accounting and packed-region offsets

`group_used_words` is line 463 of the source:
`used_words += bits * QUANT_GROUP_SIZE / sizeof(uint32_t);`.
`worker_offset` is the CUB `ExclusiveSum` over the per-worker counts
(line 480), `emitted_block_used_words` is what thread 255 stores into
`block_used_words[blockIdx.x]` (line 485), `encoder_group_offset` is
the word index at which the pack loop (lines 489-509) writes group
`(w, g)`, and `decoder_group_offset` is the word index from which the
decompress kernel (lines 644-673) reads group `(w, g)` — the decoder
starts every thread at the beginning of the block's packed region and
only advances past the thread's own previous groups.
`claimed_group_offset` follows the spec's words instead: the exclusive
prefix sum of `bits` over all preceding groups in worker-then-group
order. `bits` is indexed as worker → group. -/

def group_used_words (bits : ℕ) : ℕ := bits * QUANT_GROUP_SIZE / sizeof_uint32

def worker_used_words (bits : ℕ → ℕ → ℕ) (w : ℕ) : ℕ :=
  sumUpTo (fun i => group_used_words (bits w i)) THREAD_GROUP_COUNT

def worker_offset (bits : ℕ → ℕ → ℕ) (w : ℕ) : ℕ :=
  sumUpTo (worker_used_words bits) w

def emitted_block_used_words (bits : ℕ → ℕ → ℕ) : ℕ :=
  worker_offset bits (BLOCK_SIZE - 1) + worker_used_words bits (BLOCK_SIZE - 1)

def encoder_group_offset (bits : ℕ → ℕ → ℕ) (w g : ℕ) : ℕ :=
  worker_offset bits w + sumUpTo (bits w) g

def decoder_group_offset (bits : ℕ → ℕ → ℕ) (w g : ℕ) : ℕ :=
  sumUpTo (bits w) g

def claimed_group_offset (bits : ℕ → ℕ → ℕ) (w g : ℕ) : ℕ :=
  sumUpTo (fun v => sumUpTo (bits v) THREAD_GROUP_COUNT) w + sumUpTo (bits w) g

/-- Sum of `bits` over all `WORKERS_PER_BLOCK * GROUPS_PER_WORKER` groups of a
block, the value the spec says `block_used_words[b]` should equal. -/
def block_bits_total (bits : ℕ → ℕ → ℕ) : ℕ :=
  sumUpTo (fun v => sumUpTo (bits v) THREAD_GROUP_COUNT) BLOCK_SIZE

/-- Bits table with a single nonzero entry: worker 0, group 0 has `bits = 1`. -/
def bits_single_one : ℕ → ℕ → ℕ := fun w g => if w = 0 then if g = 0 then 1 else 0 else 0

/-- Bits table where workers 0 and 1 each have `bits = 1` in group 0. -/
def bits_two_workers : ℕ → ℕ → ℕ := fun w g => if g = 0 then if w ≤ 1 then 1 else 0 else 0

/-! ## Claim C5: return value of `FloatCompressor::Compress` on failure -/

/-- C++ integral-to-`bool` conversion: any nonzero value converts to `true`. -/
def cpp_bool_of_int (n : ℤ) : Bool := decide (n ≠ 0)

/-- Outcome of each fallible step of `FloatCompressor::Compress`
(lines 516-627), in program order. -/
structure CompressEnv where
  malloc_original_ok : Bool
  malloc_managed_ok : Bool
  zstd_create_ok : Bool
  zstd_init_ok : Bool
  header_stream_ok : Bool
  blocks_stream_ok : Bool
  flush_ok : Bool

/-- Return value of `FloatCompressor::Compress` as a function of which step
fails first, mirroring the return statements of lines 516-627: the two
allocation failure paths execute `return -1;` inside a function whose
declared return type is `bool`, so the returned value passes through the
C++ integral-to-bool conversion. -/
def Compress_result (e : CompressEnv) : Bool :=
  if !e.malloc_original_ok then cpp_bool_of_int (-1)
  else if !e.malloc_managed_ok then cpp_bool_of_int (-1)
  else if !e.zstd_create_ok then false
  else if !e.zstd_init_ok then false
  else if !e.header_stream_ok then false
  else if !e.blocks_stream_ok then false
  else if !e.flush_ok then false
  else true

/-! ## Claim C6: header parsing of `FloatDecompressor::Decompress` -/

/-- Source `read_uint32_le` (line 157) over a byte list; an index beyond the
list yields the (unspecified) value 0 — the theorems only track which
indices get dereferenced. -/
def read_uint32_le (bytes : List ℕ) (p : ℕ) : ℕ :=
  bytes.getD p 0 ||| (bytes.getD (p + 1) 0 <<< 8) ||| (bytes.getD (p + 2) 0 <<< 16) |||
    (bytes.getD (p + 3) 0 <<< 24)

/-- Block count computed by `Decompress` (line 711) from the `float_count`
header field. -/
def decomp_block_count (bytes : List ℕ) : ℕ :=
  (read_uint32_le bytes 8 + BLOCK_FLOAT_COUNT - 1) / BLOCK_FLOAT_COUNT

/-- Result of the header checks of `FloatDecompressor::Decompress`
(lines 697-705): `false` on short input or bad magic, otherwise the
function proceeds. -/
def Decompress_header_ok (bytes : List ℕ) : Bool :=
  if bytes.length < kHeaderBytes then false
  else if read_uint32_le bytes 0 ≠ kMagic then false
  else true

/-- Byte indices of the input that `Decompress` dereferences while parsing
the header, including the per-block word counts read at
`kHeaderBytes + 4*i` for `i < block_count` (lines 702-718), which are
read without any bound check against `compressed_bytes`. -/
def Decompress_read_indices (bytes : List ℕ) : List ℕ :=
  if bytes.length < kHeaderBytes then []
  else if read_uint32_le bytes 0 ≠ kMagic then [0, 1, 2, 3]
  else [0, 1, 2, 3, 4, 5, 6, 7, 8, 9, 10, 11] ++
    (List.range (decomp_block_count bytes)).flatMap
      (fun i => [kHeaderBytes + 4 * i, kHeaderBytes + 4 * i + 1,
                 kHeaderBytes + 4 * i + 2, kHeaderBytes + 4 * i + 3])

/-- A 12-byte input whose first four bytes are the little-endian magic
`0xCA7DD007` and whose `float_count` field (bytes 8-11) is 1. -/
def c6_failing_bytes : List ℕ := [0x07, 0xD0, 0x7D, 0xCA, 0, 0, 0, 0, 1, 0, 0, 0]

/-! ## Bit interleaver (cuszplus_f32.cu lines 206-223 and 321-335)

The kernels are compiled with `INTERLEAVE_BITS == 1`, so the 1-bit tile
variants are the ones embedded. `orBitsUpTo f n` is the value of an
accumulator that starts at 0 and ORs in `f 0, …, f (n-1)`, modelling the
`result |=` loops. -/

def orBitsUpTo (f : ℕ → ℕ) : ℕ → ℕ
  | 0 => 0
  | n + 1 => orBitsUpTo f n ||| f n

/-- Output word `shift` of `interleave_words_1bit` (lines 206-223): the loop
body ORs `((input[i] & (1 << shift)) >> shift) << i` over `i < 32`. -/
def interleave_word (input : ℕ → ℕ) (shift : ℕ) : ℕ :=
  orBitsUpTo (fun i => ((input i &&& (1 <<< shift)) >>> shift) <<< i) 32

/-- Source `interleave_words_1bit`: emits one word per `shift < bits`. -/
def interleave_words_1bit (input : ℕ → ℕ) (bits : ℕ) : List ℕ :=
  (List.range bits).map (interleave_word input)

/-- Source `deinterleave_words_1bit` (lines 321-335), output word `i`: the
loop body ORs `((input[j] >> i) & 1) << j` over `j < bits`. -/
def deinterleave_words_1bit (input : ℕ → ℕ) (bits : ℕ) (i : ℕ) : ℕ :=
  orBitsUpTo (fun j => ((input j >>> i) &&& 1) <<< j) bits

/-! ## Decoder per-group reconstruction (cuszplus_f32.cu lines 649-676) -/

/-- Reconstructed exception value, line 653:
`(high_bits[...] << bits) | ((1 << bits) - 1)` in `uint32_t` arithmetic
(the reduction modulo `2 ^ 32` matches the device's truncating shift). -/
def decode_max_quant (high bits : ℕ) : ℕ :=
  ((high <<< bits) ||| ((1 <<< bits) - 1)) % U32

/-- Residuals of one group as reconstructed by the decompress kernel: the
group is zero-filled when `bits = 0` and deinterleaved otherwise
(lines 655-671), and afterwards the entry at `max_index` is overwritten
with the reconstructed exception (line 676), modelled by
`Function.update`. -/
def decode_group_residuals (max_index bits high : ℕ) (words : ℕ → ℕ) : ℕ → ℕ :=
  Function.update
    (fun j => if bits = 0 then 0 else deinterleave_words_1bit words bits j)
    max_index (decode_max_quant high bits)

/-- Input for the C9 counterexample: the entry at index 0 (the group's
largest residual, hence the exception) is 2, every other entry is 0. -/
def c9_x : ℕ → ℕ := fun i => if i = 0 then 2 else 0

/-! ## Per-group max/max2 scan (cuszplus_f32.cu lines 449-457)

State is the triple `(max_quant, max2_quant, max_index)` updated once per
loop iteration `j` with the residual `v = zig_quant`. -/

/-- Loop body of the scan: `if (zig_quant > max_quant) { max2 = max;
max = zig; idx = j; } else if (zig_quant > max2_quant) { max2 = zig; }`. -/
def scan_step (s : ℕ × ℕ × ℕ) (j v : ℕ) : ℕ × ℕ × ℕ :=
  if v > s.1 then (v, s.1, j)
  else if v > s.2.1 then (s.1, v, s.2.2)
  else s

/-- State of the scan after the loop iterations `0, …, n-1`; the kernel
initializes `max_quant = 0, max2_quant = 0, max_index = 0` (lines 433-434)
and runs the loop for `j < QUANT_GROUP_SIZE`. -/
def scan_group (r : ℕ → ℕ) : ℕ → ℕ × ℕ × ℕ
  | 0 => (0, 0, 0)
  | n + 1 => scan_step (scan_group r n) n (r n)

/-! ## Single-worker compress/decompress pipeline (claim C1)

The model follows one worker (`thread_idx = tid`) of the compress kernel
(lines 426-509) and the same worker of the decompress kernel
(lines 640-686). A worker's slice is self-contained: its parameter-table
slots are indexed by `THREAD_GROUP_COUNT * threadIdx.x + i` and its packed
words occupy `[offset, offset + Σ bits)` where `offset` is its exclusive
scan result, disjoint from every other worker (the scan counts
`used_words ≥ Σ bits`). For thread 0 the encoder's scan offset is 0 and
the decoder also starts at word 0, so the packed list below is read back
at exactly the offsets it was written.

CUDA `__float2int_rn` rounds to the nearest integer, ties to even; the
model `rne` computes that rounding exactly over `ℚ`. The kernel replaces
`epsilon` by `1.0f / epsilon` (line 429) and multiplies each float by it
(line 438); with `epsilon = 1` and small integral data both operations
are exact in `float`, so the `ℚ` model agrees with the device
arithmetic on the concrete input used by the C1 theorem. -/

/-- Round to nearest, ties to even (CUDA `__float2int_rn`, line 441),
computed exactly over `ℚ`. -/
def rne (x : ℚ) : ℤ :=
  let f := ⌊x⌋
  let frac := x - f
  if frac < 1 / 2 then f
  else if 1 / 2 < frac then f + 1
  else if f % 2 = 0 then f else f + 1

/-- Parameter triple of one quantization group (lines 467-472). -/
structure GroupParams where
  max_index : ℕ
  bits : ℕ
  high : ℕ

/-- Quantized value of the `k`-th float processed by worker `tid`
(`k = i * QUANT_GROUP_SIZE + j` in loop order): the kernel reads the
float at `compress_float_index tid (k / 32) (k % 32)` (line 437) and
rounds `f * inv_epsilon` (lines 438-441). -/
def quant_at (data : ℕ → ℚ) (inv_epsilon : ℚ) (tid k : ℕ) : ℤ :=
  rne (data (compress_float_index tid (k / QUANT_GROUP_SIZE) (k % QUANT_GROUP_SIZE)) * inv_epsilon)

/-- Value of `prev_quant` before the `k`-th iteration: 0 at worker start
(line 431), else the previous quantized value (line 444). -/
def prev_quant_at (data : ℕ → ℚ) (inv_epsilon : ℚ) (tid k : ℕ) : ℤ :=
  if k = 0 then 0 else quant_at data inv_epsilon tid (k - 1)

/-- Residual stored in `quant_group[k]` (lines 443-447): zigzag of the
32-bit delta. -/
def zig_at (data : ℕ → ℚ) (inv_epsilon : ℚ) (tid k : ℕ) : ℕ :=
  zigzag_encode (toU32 (toI32 (quant_at data inv_epsilon tid k - prev_quant_at data inv_epsilon tid k)))

/-- Residuals of group `g` of worker `tid`, as a function of the position
`j < QUANT_GROUP_SIZE`. -/
def group_residual (data : ℕ → ℚ) (inv_epsilon : ℚ) (tid g : ℕ) : ℕ → ℕ :=
  fun j => zig_at data inv_epsilon tid (g * QUANT_GROUP_SIZE + j)

/-- Parameter triple the encoder writes for group `g` of worker `tid`
(lines 449-472): the scan result, `bits = bit_count max2`, and
`high = max >> bits`. -/
def group_params (data : ℕ → ℚ) (inv_epsilon : ℚ) (tid g : ℕ) : GroupParams :=
  ⟨(scan_group (group_residual data inv_epsilon tid g) QUANT_GROUP_SIZE).2.2,
   bit_count (scan_group (group_residual data inv_epsilon tid g) QUANT_GROUP_SIZE).2.1,
   (scan_group (group_residual data inv_epsilon tid g) QUANT_GROUP_SIZE).1 >>>
     bit_count (scan_group (group_residual data inv_epsilon tid g) QUANT_GROUP_SIZE).2.1⟩

/-- Packed words written by worker `tid` (lines 493-509): the interleaved
words of its four groups, consecutively (`compressed_words += bits`). -/
def worker_packed (data : ℕ → ℚ) (inv_epsilon : ℚ) (tid : ℕ) : List ℕ :=
  ((List.range THREAD_GROUP_COUNT).map (fun g =>
    interleave_words_1bit (group_residual data inv_epsilon tid g)
      (group_params data inv_epsilon tid g).bits)).flatten

/-- Residual `k % 32` of group `k / 32` as reconstructed by the decompress
kernel (lines 649-676); the group's words are read starting at the sum of
the thread's previous groups' `bits` (line 673). -/
def decode_residual (params : ℕ → GroupParams) (packed : List ℕ) (k : ℕ) : ℕ :=
  decode_group_residuals (params (k / QUANT_GROUP_SIZE)).max_index
    (params (k / QUANT_GROUP_SIZE)).bits (params (k / QUANT_GROUP_SIZE)).high
    (fun s => packed.getD (sumUpTo (fun i => (params i).bits) (k / QUANT_GROUP_SIZE) + s) 0)
    (k % QUANT_GROUP_SIZE)

/-- Decoded quantized value at local position `k` (lines 679-681):
`curr_quant = zigzag_decode(residual) + prev_quant` in `int32_t`
arithmetic, with `prev_quant` starting at 0. -/
def decoded_quant (params : ℕ → GroupParams) (packed : List ℕ) : ℕ → ℤ
  | 0 => toI32 (zigzag_decode (decode_residual params packed 0) + 0)
  | k + 1 => toI32 (zigzag_decode (decode_residual params packed (k + 1))
      + decoded_quant params packed k)

/-- Float written back at local position `k` of thread 0 after a full
compress/decompress round trip of the two kernels (line 684 multiplies
the decoded quantized value by epsilon). -/
def thread0_roundtrip (data : ℕ → ℚ) (epsilon : ℚ) (k : ℕ) : ℚ :=
  ((decoded_quant (fun g => group_params data (1 / epsilon) 0 g)
      (worker_packed data (1 / epsilon) 0) k : ℤ) : ℚ) * epsilon

/-- Input for the C1 theorem: 100 at index 32, zero elsewhere (indices at
and beyond `float_count` model the spec's zero padding). -/
def c1_data : ℕ → ℚ := fun n => if n = 32 then 100 else 0

/-! ## Claim C10: the per-block zstd decompression loop

`FloatDecompressor::Decompress` runs, per block (lines 747-754):
`while (output.pos < block_used_words[i] * 4 + BLOCK_PARAM_COUNT * PARAM_SIZE)`
calling `ZSTD_decompressStream`, returning `false` on error and breaking
when the call returns 0 (frame end). The entropy coder is external; it is
modelled by the spec's streaming contract: a call may write up to the
remaining output capacity, may consume input, flags errors per call, and
returns 0 exactly when a frame ends. A behavior is any function from the
current `(output.pos, input.pos)` to a step result that respects the
capacity bounds. -/

/-- Result of one `ZSTD_decompressStream` call: the error flag, the return
code (0 means the frame ended), and the new output/input positions. -/
structure ZstdStepResult where
  is_error : Bool
  ret : ℕ
  out_pos : ℕ
  in_pos : ℕ

/-- Streaming-contract obligation (spec section 6) for a decoder behavior:
positions only advance and never pass the span sizes. -/
def zstd_stream_contract (f : ℕ × ℕ → ZstdStepResult) (out_size in_size : ℕ) : Prop :=
  ∀ s : ℕ × ℕ, s.1 ≤ out_size → s.2 ≤ in_size →
    s.1 ≤ (f s).out_pos ∧ (f s).out_pos ≤ out_size ∧ s.2 ≤ (f s).in_pos ∧ (f s).in_pos ≤ in_size

/-- Positions after `n` iterations of the loop body. -/
def decompress_loop_state (f : ℕ × ℕ → ZstdStepResult) (s0 : ℕ × ℕ) : ℕ → ℕ × ℕ
  | 0 => s0
  | n + 1 => ((f (decompress_loop_state f s0 n)).out_pos, (f (decompress_loop_state f s0 n)).in_pos)

/-- The loop of lines 750-754 exits: at some iteration the guard
`output.pos < target` fails, or the call errors (the function returns),
or the call returns 0 (`break`). -/
def decompress_loop_exits (f : ℕ × ℕ → ZstdStepResult) (target : ℕ) (s0 : ℕ × ℕ) : Prop :=
  ∃ n, ¬ (decompress_loop_state f s0 n).1 < target ∨
    (f (decompress_loop_state f s0 n)).is_error = true ∨
    (f (decompress_loop_state f s0 n)).ret = 0

/-- Contract-conforming adversarial behavior: the decoder fills the whole
output buffer at once and afterwards keeps returning the nonzero size
hint 1 without progress — exactly what a real streaming decoder does once
the output span is full while its frame still has data. -/
def zstd_fill_then_stall (out_size : ℕ) : ℕ × ℕ → ZstdStepResult :=
  fun s => ⟨false, 1, out_size, s.2⟩

/-- Output-buffer capacity `block_bytes` used by `Decompress` (line 712). -/
def c10_block_bytes : ℕ := BLOCK_PARAM_COUNT * PARAM_SIZE + BLOCK_FLOAT_COUNT * 4

/-- Loop target for a header whose `block_used_words[0]` field is 40000
(line 750); it exceeds the `block_bytes` capacity of the output buffer. -/
def c10_target : ℕ := 40000 * 4 + BLOCK_PARAM_COUNT * PARAM_SIZE

/-! ## Theorems for claims C2-C6 -/

/-- C2: the claim fails on the code. The compress kernel (line 437) computes
`float_index = thread_idx * THREAD_FLOAT_COUNT + j`, dropping the group
index, so worker 0's group 1 position 0 reads the float at index 0, not
index `0*128 + 1*32 + 0 = 32`. The decompress kernel's indexing (line 683)
does match the claimed layout, which is what makes the slip observable. -/
theorem C2_compress_reads_wrong_float :
    compress_float_index 0 1 0 = 0 ∧
    decompress_float_index 0 1 0 = 32 ∧
    ¬ compress_float_index 0 1 0 = 0 * THREAD_FLOAT_COUNT + 1 * QUANT_GROUP_SIZE + 0 := by
  decide

/-- C3: the claim fails on the code. With a single group of `bits = 1`
(worker 0, group 0) and every other group at 0 bits, line 463 accumulates
`1 * QUANT_GROUP_SIZE / sizeof(uint32_t) = 8` words for that worker and the
block emits `block_used_words = 8`, while the sum of `bits` over all 1024
groups of the block is 1. -/
theorem C3_used_words_overcounted :
    worker_used_words bits_single_one 0 = 8 ∧
    emitted_block_used_words bits_single_one = 8 ∧
    block_bits_total bits_single_one = 1 := by
  decide

/-- C4: the claim fails on the code. With workers 0 and 1 each holding one
group of `bits = 1` (group 0) and all other groups at 0 bits, the encoder
writes worker 1's group 0 at block-relative word offset 8 (the exclusive
prefix sum of the overcounted `used_words`), the decoder reads it from
offset 0 (every thread starts at the beginning of the packed region), and
the exclusive prefix sum of `bits` in worker-then-group order — the offset
the claim specifies for both — is 1. -/
theorem C4_group_offsets_disagree :
    encoder_group_offset bits_two_workers 1 0 = 8 ∧
    decoder_group_offset bits_two_workers 1 0 = 0 ∧
    claimed_group_offset bits_two_workers 1 0 = 1 := by
  decide

/-- C5: the claim fails on the code. When either `cudaMalloc` (line 523) or
`cudaMallocManaged` (line 536) fails, `Compress` executes `return -1;`;
under the C++ integral-to-bool conversion the `bool` result is `true`,
not the `false` the claim requires. -/
theorem C5_malloc_failure_returns_true :
    Compress_result ⟨false, true, true, true, true, true, true⟩ = true ∧
    Compress_result ⟨true, false, true, true, true, true, true⟩ = true := by
  decide

/-- C6: the short-input and bad-magic checks do return `false` (first two
conjuncts, lines 697-705), but the claim's safety part fails on the code:
on a 12-byte input carrying the valid magic and `float_count = 1`, the
block-count loop (line 717) dereferences input byte indices 12-15, all of
which are `≥ byte_count = 12`. -/
theorem C6_reads_past_end :
    Decompress_header_ok [0, 1, 2, 3, 4, 5, 6, 7, 8, 9, 10] = false ∧
    Decompress_header_ok [0, 0, 0, 0, 0, 0, 0, 0, 0, 0, 0, 0] = false ∧
    Decompress_header_ok c6_failing_bytes = true ∧
    c6_failing_bytes.length = 12 ∧
    12 ∈ Decompress_read_indices c6_failing_bytes := by
  decide

/-! ## Bit-level lemmas about the interleaver -/

theorem testBit_orBitsUpTo (f : ℕ → ℕ) (n k : ℕ) :
    (orBitsUpTo f n).testBit k = true ↔ ∃ m, m < n ∧ (f m).testBit k = true := by
  induction n with
  | zero => simp [orBitsUpTo]
  | succ n ih =>
    simp only [orBitsUpTo, Nat.testBit_or, Bool.or_eq_true, ih]
    constructor
    · rintro (⟨m, hm, h⟩ | h)
      · exact ⟨m, Nat.lt_succ_of_lt hm, h⟩
      · exact ⟨n, Nat.lt_succ_self n, h⟩
    · rintro ⟨m, hm, h⟩
      rcases Nat.lt_succ_iff_lt_or_eq.mp hm with h2 | rfl
      · exact Or.inl ⟨m, h2, h⟩
      · exact Or.inr h

theorem extract_bit_eq (x s : ℕ) : (x &&& (1 <<< s)) >>> s = (x.testBit s).toNat := by
  apply Nat.eq_of_testBit_eq
  intro k
  rw [Nat.testBit_shiftRight, Nat.testBit_and, Nat.one_shiftLeft, Nat.testBit_two_pow]
  cases k with
  | zero =>
    simp only [Nat.add_zero, decide_eq_true_eq]
    cases h : x.testBit s <;> simp [h]
  | succ k =>
    have hne : s ≠ s + (k + 1) := by omega
    simp only [decide_eq_false hne, Bool.and_false]
    have hone : (1 : ℕ) < 2 ^ (k + 1) := Nat.one_lt_two_pow (by omega)
    cases h : x.testBit s <;> simp [h, Nat.testBit_lt_two_pow hone]

theorem testBit_toNat_shiftLeft (b : Bool) (i k : ℕ) :
    ((b.toNat <<< i).testBit k) = (decide (k = i) && b) := by
  cases b with
  | false => simp [Nat.shiftLeft_eq]
  | true =>
    have h1 : (true.toNat : ℕ) = 1 := rfl
    rw [h1, Nat.one_shiftLeft, Nat.testBit_two_pow]
    by_cases h : k = i
    · subst h; simp
    · simp [h, Ne.symm h]

theorem interleave_word_testBit (input : ℕ → ℕ) (s k : ℕ) :
    (interleave_word input s).testBit k = true ↔ k < 32 ∧ (input k).testBit s = true := by
  unfold interleave_word
  rw [testBit_orBitsUpTo]
  constructor
  · rintro ⟨m, hm, h⟩
    rw [extract_bit_eq, testBit_toNat_shiftLeft, Bool.and_eq_true, decide_eq_true_eq] at h
    obtain ⟨hkm, hbit⟩ := h
    subst hkm
    exact ⟨hm, hbit⟩
  · rintro ⟨hk, h⟩
    refine ⟨k, hk, ?_⟩
    rw [extract_bit_eq, testBit_toNat_shiftLeft]
    simp [h]

theorem deinterleave_word_testBit (input : ℕ → ℕ) (b i k : ℕ) :
    (deinterleave_words_1bit input b i).testBit k = true ↔ k < b ∧ (input k).testBit i = true := by
  unfold deinterleave_words_1bit
  rw [testBit_orBitsUpTo]
  have hterm : ∀ j : ℕ, (input j >>> i) &&& 1 = ((input j).testBit i).toNat := by
    intro j
    have h := extract_bit_eq (input j >>> i) 0
    simpa [Nat.testBit_shiftRight] using h
  constructor
  · rintro ⟨m, hm, h⟩
    rw [hterm, testBit_toNat_shiftLeft, Bool.and_eq_true, decide_eq_true_eq] at h
    obtain ⟨hkm, hbit⟩ := h
    subst hkm
    exact ⟨hm, hbit⟩
  · rintro ⟨hk, h⟩
    refine ⟨k, hk, ?_⟩
    rw [hterm, testBit_toNat_shiftLeft]
    simp [h]

theorem interleave_words_getD (input : ℕ → ℕ) (bits s : ℕ) (h : s < bits) :
    (interleave_words_1bit input bits).getD s 0 = interleave_word input s := by
  unfold interleave_words_1bit
  rw [List.getD_eq_getElem?_getD, List.getElem?_map, List.getElem?_range h]
  rfl

/-- C9 (amended): for every `bits ≤ 32` and every vector of 32 words all of
which fit in `bits` low bits, the 1-bit interleaver emits exactly `bits`
output words whose word `s` has bit `i` equal to bit `s` of input word `i`,
the deinterleaver inverts it on all 32 positions, and the reproduced words
have all their high bits (positions `≥ bits`) zero. The claim as frozen
exempted the exception entry from the fit condition; the counterexample
shows the exemption cannot stand, and this theorem requires every entry to
fit. -/
theorem C9_interleave_roundtrip (bits : ℕ) (hbits : bits ≤ 32) (x : ℕ → ℕ)
    (hx : ∀ i, i < 32 → x i < 2 ^ bits) :
    (interleave_words_1bit x bits).length = bits ∧
    (∀ s, s < bits → ∀ i, i < 32 →
      ((interleave_words_1bit x bits).getD s 0).testBit i = (x i).testBit s) ∧
    (∀ i, i < 32 →
      deinterleave_words_1bit (fun s => (interleave_words_1bit x bits).getD s 0) bits i = x i) ∧
    (∀ i, i < 32 → ∀ k, bits ≤ k →
      (deinterleave_words_1bit (fun s => (interleave_words_1bit x bits).getD s 0) bits i).testBit k
        = false) := by
  have hround : ∀ i, i < 32 →
      deinterleave_words_1bit (fun s => (interleave_words_1bit x bits).getD s 0) bits i = x i := by
    intro i hi
    apply Nat.eq_of_testBit_eq
    intro k
    cases hxk : (x i).testBit k with
    | true =>
      have hk : k < bits := by
        by_contra hkb
        have hlt : x i < 2 ^ k :=
          Nat.lt_of_lt_of_le (hx i hi) (Nat.pow_le_pow_right (by omega) (by omega))
        rw [Nat.testBit_lt_two_pow hlt] at hxk
        exact Bool.false_ne_true hxk
      apply (deinterleave_word_testBit _ bits i k).mpr
      refine ⟨hk, ?_⟩
      rw [interleave_words_getD x bits k hk]
      exact (interleave_word_testBit x k i).mpr ⟨hi, hxk⟩
    | false =>
      rw [Bool.eq_false_iff]
      intro hcon
      obtain ⟨hk, hbit⟩ := (deinterleave_word_testBit _ bits i k).mp hcon
      rw [interleave_words_getD x bits k hk] at hbit
      obtain ⟨-, hbit2⟩ := (interleave_word_testBit x k i).mp hbit
      rw [hxk] at hbit2
      exact Bool.false_ne_true hbit2
  refine ⟨by simp [interleave_words_1bit], ?_, hround, ?_⟩
  · intro s hs i hi
    rw [interleave_words_getD x bits s hs]
    cases hxs : (x i).testBit s with
    | true => exact (interleave_word_testBit x s i).mpr ⟨hi, hxs⟩
    | false =>
      rw [Bool.eq_false_iff]
      intro hcon
      obtain ⟨-, hbit⟩ := (interleave_word_testBit x s i).mp hcon
      rw [hxs] at hbit
      exact Bool.false_ne_true hbit
  · intro i hi k hk
    rw [hround i hi]
    exact Nat.testBit_lt_two_pow
      (Nat.lt_of_lt_of_le (hx i hi) (Nat.pow_le_pow_right (by omega) hk))

/-- C9 witness: the round-trip theorem applied at `bits = 2` and the input
word vector `i % 4`, with both hypotheses discharged by evaluation. -/
theorem C9_interleave_roundtrip_witness :
    (2 ≤ 32 ∧ ∀ i, i < 32 → (fun i : ℕ => i % 4) i < 2 ^ 2) ∧
    ((interleave_words_1bit (fun i : ℕ => i % 4) 2).length = 2 ∧
    (∀ s, s < 2 → ∀ i, i < 32 →
      ((interleave_words_1bit (fun i : ℕ => i % 4) 2).getD s 0).testBit i
        = ((fun i : ℕ => i % 4) i).testBit s) ∧
    (∀ i, i < 32 →
      deinterleave_words_1bit (fun s => (interleave_words_1bit (fun i : ℕ => i % 4) 2).getD s 0) 2 i
        = (fun i : ℕ => i % 4) i) ∧
    (∀ i, i < 32 → ∀ k, 2 ≤ k →
      (deinterleave_words_1bit
        (fun s => (interleave_words_1bit (fun i : ℕ => i % 4) 2).getD s 0) 2 i).testBit k
        = false)) :=
  ⟨⟨by decide, by decide⟩,
    C9_interleave_roundtrip 2 (by decide) (fun i : ℕ => i % 4) (by decide)⟩

/-- C9 counterexample: the claim as frozen allows the exception entry (here
index 0, the group's unique largest residual) to carry bits at positions
`≥ bits`. With `bits = 1` and input `c9_x` — whose non-exception entries
are all 0 and therefore fit in 1 bit — the round trip returns 0 at index
0 while the original entry is 2, so the claimed equality
`deinterleave(interleave(x, bits), bits) = x` fails. -/
theorem C9_counterexample :
    (∀ i, i < 32 → 0 < i → c9_x i < 2 ^ 1) ∧
    (∀ i, i < 32 → 0 < i → c9_x i ≤ c9_x 0) ∧
    ¬ deinterleave_words_1bit (fun s => (interleave_words_1bit c9_x 1).getD s 0) 1 0 = c9_x 0 := by
  refine ⟨by decide, by decide, ?_⟩
  decide

/-- C7: after the per-group unpack (or zero fill when `bits = 0`), the
decompress kernel overwrites the residual at `max_index` with
`(high << bits) | ((1 << bits) - 1)`; the value decoded at `max_index`
is therefore this reconstruction for every possible packed content, and
every other position still carries the unpacked (or zero-filled) value. -/
theorem C7_exception_overwritten (max_index bits high : ℕ) (w w2 : ℕ → ℕ) :
    decode_group_residuals max_index bits high w max_index = decode_max_quant high bits ∧
    decode_group_residuals max_index bits high w max_index
      = decode_group_residuals max_index bits high w2 max_index ∧
    (∀ j, j ≠ max_index → decode_group_residuals max_index bits high w j
      = if bits = 0 then 0 else deinterleave_words_1bit w bits j) := by
  refine ⟨?_, ?_, ?_⟩
  · simp [decode_group_residuals]
  · simp [decode_group_residuals]
  · intro j hj
    simp [decode_group_residuals, Function.update_noteq hj]

/-- C7 witness: the overwrite theorem applied at a concrete group — the
packed words `w = 7` and `w2 = 0` disagree at every bit, yet the decoded
exception at `max_index = 3` is the same reconstructed value. -/
theorem C7_exception_overwritten_witness :
    decode_group_residuals 3 2 5 (fun _ => 7) 3 = decode_max_quant 5 2 ∧
    decode_group_residuals 3 2 5 (fun _ => 7) 3 = decode_group_residuals 3 2 5 (fun _ => 0) 3 ∧
    (∀ j, j ≠ 3 → decode_group_residuals 3 2 5 (fun _ => 7) j
      = if 2 = 0 then 0 else deinterleave_words_1bit (fun _ => 7) 2 j) :=
  C7_exception_overwritten 3 2 5 (fun _ => 7) (fun _ => 0)

/-! ## Agreement of the fuel-based binary length with `Nat.size` -/

theorem size_div2 (x : ℕ) (hx : x ≠ 0) : Nat.size x = Nat.size (x / 2) + 1 := by
  have hbit : Nat.bit (decide (x % 2 = 1)) (x >>> 1) ≠ 0 := by
    rw [Nat.bit_decide_mod_two_eq_one_shiftRight_one]
    exact hx
  conv_lhs => rw [← Nat.bit_decide_mod_two_eq_one_shiftRight_one x]
  rw [Nat.size_bit hbit]
  rfl

theorem size_fuel_eq_size (fuel : ℕ) : ∀ x, x < 2 ^ fuel → size_fuel fuel x = Nat.size x := by
  induction fuel with
  | zero =>
    intro x hx
    have h0 : x = 0 := by omega
    subst h0
    simp [size_fuel, Nat.size_zero]
  | succ fuel ih =>
    intro x hx
    by_cases h0 : x = 0
    · subst h0
      simp [size_fuel, Nat.size_zero]
    · have h2 : 2 ^ (fuel + 1) = 2 ^ fuel * 2 := pow_succ 2 fuel
      have hdiv : x / 2 < 2 ^ fuel := by omega
      rw [show size_fuel (fuel + 1) x = size_fuel fuel (x / 2) + 1 by simp [size_fuel, h0]]
      rw [ih (x / 2) hdiv]
      exact (size_div2 x h0).symm

/-! ## Invariant of the max/max2 scan -/

theorem scan_group_invariant (r : ℕ → ℕ) (n : ℕ) :
    (scan_group r n).1 = (Finset.range n).sup r ∧
    (scan_group r n).2.1 = ((Finset.range n).erase (scan_group r n).2.2).sup r ∧
    (∀ j, j < (scan_group r n).2.2 → r j < (scan_group r n).1) ∧
    ((scan_group r n).2.2 = 0 ∨ (scan_group r n).2.2 < n) ∧
    (n ≠ 0 → r (scan_group r n).2.2 = (scan_group r n).1) := by
  induction n with
  | zero =>
    refine ⟨by simp [scan_group], by simp [scan_group], ?_, Or.inl rfl, by simp⟩
    intro j hj
    simp [scan_group] at hj
  | succ n ih =>
    obtain ⟨h1, h2, h3, h4, h5⟩ := ih
    have hrange : Finset.range (n + 1) = insert n (Finset.range n) := Finset.range_succ
    have hstep : scan_group r (n + 1) = scan_step (scan_group r n) n (r n) := rfl
    by_cases hn : n = 0
    · subst hn
      by_cases hv : r 0 > 0
      · have e1 : (scan_group r 1).1 = r 0 := by simp [scan_group, scan_step, hv]
        have e2 : (scan_group r 1).2.1 = 0 := by simp [scan_group, scan_step, hv]
        have e3 : (scan_group r 1).2.2 = 0 := by simp [scan_group, scan_step, hv]
        rw [e1, e2, e3]
        refine ⟨by simp [Finset.range_one], by simp [Finset.range_one], ?_, Or.inl rfl, ?_⟩
        · intro j hj; omega
        · intro _; rfl
      · have hr0 : r 0 = 0 := by omega
        have e1 : (scan_group r 1).1 = 0 := by simp [scan_group, scan_step, hv]
        have e2 : (scan_group r 1).2.1 = 0 := by simp [scan_group, scan_step, hv]
        have e3 : (scan_group r 1).2.2 = 0 := by simp [scan_group, scan_step, hv]
        rw [e1, e2, e3]
        refine ⟨by simp [Finset.range_one, hr0], by simp [Finset.range_one], ?_, Or.inl rfl, ?_⟩
        · intro j hj; omega
        · intro _; exact hr0
    · have hidx : (scan_group r n).2.2 < n := by
        rcases h4 with h | h
        · omega
        · exact h
      by_cases hA : r n > (scan_group r n).1
      · have e1 : (scan_group r (n + 1)).1 = r n := by
          rw [hstep]; simp [scan_step, hA]
        have e2 : (scan_group r (n + 1)).2.1 = (scan_group r n).1 := by
          rw [hstep]; simp [scan_step, hA]
        have e3 : (scan_group r (n + 1)).2.2 = n := by
          rw [hstep]; simp [scan_step, hA]
        rw [e1, e2, e3]
        refine ⟨?_, ?_, ?_, Or.inr (Nat.lt_succ_self n), fun _ => rfl⟩
        · rw [hrange, Finset.sup_insert, ← h1]
          exact (sup_eq_left.mpr (le_of_lt hA)).symm
        · rw [hrange, Finset.erase_insert Finset.not_mem_range_self, ← h1]
        · intro j hj
          have hle : r j ≤ (scan_group r n).1 := h1 ▸ Finset.le_sup (Finset.mem_range.mpr hj)
          omega
      · by_cases hB : r n > (scan_group r n).2.1
        · have e1 : (scan_group r (n + 1)).1 = (scan_group r n).1 := by
            rw [hstep]; simp [scan_step, hA, hB]
          have e2 : (scan_group r (n + 1)).2.1 = r n := by
            rw [hstep]; simp [scan_step, hA, hB]
          have e3 : (scan_group r (n + 1)).2.2 = (scan_group r n).2.2 := by
            rw [hstep]; simp [scan_step, hA, hB]
          rw [e1, e2, e3]
          refine ⟨?_, ?_, h3, Or.inr (by omega), fun _ => h5 hn⟩
          · rw [hrange, Finset.sup_insert, ← h1]
            exact (sup_eq_right.mpr (by omega)).symm
          · have hne : n ≠ (scan_group r n).2.2 := by omega
            rw [hrange, Finset.erase_insert_of_ne hne, Finset.sup_insert, ← h2]
            exact (sup_eq_left.mpr (by omega)).symm
        · have e1 : (scan_group r (n + 1)).1 = (scan_group r n).1 := by
            rw [hstep]; simp [scan_step, hA, hB]
          have e2 : (scan_group r (n + 1)).2.1 = (scan_group r n).2.1 := by
            rw [hstep]; simp [scan_step, hA, hB]
          have e3 : (scan_group r (n + 1)).2.2 = (scan_group r n).2.2 := by
            rw [hstep]; simp [scan_step, hA, hB]
          rw [e1, e2, e3]
          refine ⟨?_, ?_, h3, Or.inr (by omega), fun _ => h5 hn⟩
          · rw [hrange, Finset.sup_insert, ← h1]
            exact (sup_eq_right.mpr (by omega)).symm
          · have hne : n ≠ (scan_group r n).2.2 := by omega
            rw [hrange, Finset.erase_insert_of_ne hne, Finset.sup_insert, ← h2]
            have hle2 : r n ≤ (scan_group r n).2.1 := by omega
            exact (sup_eq_right.mpr hle2).symm

/-- C8: the scan of lines 449-460 selects `max_index` as the position of the
largest residual with ties broken by first occurrence (every residual is
`≤ r max_index` and every strictly earlier one is `< r max_index`),
`max2_quant` is the maximum of the group with the entry at `max_index`
removed (the second largest), `bits = bit_count max2` equals the binary
length of `max2` — `32 - clz` on a 32-bit value, 0 when `max2 = 0` — and
consequently `second_max ≤ 2 ^ bits - 1`. -/
theorem C8_scan_correct (r : ℕ → ℕ) (h : ∀ j, j < 32 → r j < U32) :
    (scan_group r 32).2.2 < 32 ∧
    r (scan_group r 32).2.2 = (scan_group r 32).1 ∧
    (∀ j, j < 32 → r j ≤ (scan_group r 32).1) ∧
    (∀ j, j < (scan_group r 32).2.2 → r j < (scan_group r 32).1) ∧
    (scan_group r 32).2.1 = ((Finset.range 32).erase (scan_group r 32).2.2).sup r ∧
    bit_count (scan_group r 32).2.1 = Nat.size (scan_group r 32).2.1 ∧
    ((scan_group r 32).2.1 = 0 → bit_count (scan_group r 32).2.1 = 0) ∧
    (scan_group r 32).2.1 ≤ 2 ^ bit_count (scan_group r 32).2.1 - 1 := by
  obtain ⟨h1, h2, h3, h4, h5⟩ := scan_group_invariant r 32
  have hidx : (scan_group r 32).2.2 < 32 := by rcases h4 with h4 | h4 <;> omega
  have hmax : r (scan_group r 32).2.2 = (scan_group r 32).1 := h5 (by omega)
  have hle : ∀ j, j < 32 → r j ≤ (scan_group r 32).1 := by
    intro j hj
    exact h1 ▸ Finset.le_sup (Finset.mem_range.mpr hj)
  have hmx2_le : (scan_group r 32).2.1 ≤ (scan_group r 32).1 := by
    rw [h1, h2]
    exact Finset.sup_mono (Finset.erase_subset _ _)
  have hmx2_lt : (scan_group r 32).2.1 < U32 := by
    have := h _ hidx
    omega
  have hs32 : size32 (scan_group r 32).2.1 = Nat.size (scan_group r 32).2.1 :=
    size_fuel_eq_size 32 _ hmx2_lt
  have hsize : Nat.size (scan_group r 32).2.1 ≤ 32 := Nat.size_le.mpr hmx2_lt
  have hbc : bit_count (scan_group r 32).2.1 = Nat.size (scan_group r 32).2.1 := by
    unfold bit_count clz32
    omega
  refine ⟨hidx, hmax, hle, h3, h2, hbc, ?_, ?_⟩
  · intro hz
    rw [hbc, hz, Nat.size_zero]
  · rw [hbc]
    have := Nat.lt_size_self (scan_group r 32).2.1
    omega

/-- C8 witness: the scan theorem applied to the residual vector `r j = j % 7`,
whose entries are all below `2 ^ 32`. -/
theorem C8_scan_correct_witness :
    (∀ j, j < 32 → (fun j : ℕ => j % 7) j < U32) ∧
    ((scan_group (fun j : ℕ => j % 7) 32).2.2 < 32 ∧
    (fun j : ℕ => j % 7) (scan_group (fun j : ℕ => j % 7) 32).2.2
      = (scan_group (fun j : ℕ => j % 7) 32).1 ∧
    (∀ j, j < 32 → (fun j : ℕ => j % 7) j ≤ (scan_group (fun j : ℕ => j % 7) 32).1) ∧
    (∀ j, j < (scan_group (fun j : ℕ => j % 7) 32).2.2 →
      (fun j : ℕ => j % 7) j < (scan_group (fun j : ℕ => j % 7) 32).1) ∧
    (scan_group (fun j : ℕ => j % 7) 32).2.1
      = ((Finset.range 32).erase (scan_group (fun j : ℕ => j % 7) 32).2.2).sup
          (fun j : ℕ => j % 7) ∧
    bit_count (scan_group (fun j : ℕ => j % 7) 32).2.1
      = Nat.size (scan_group (fun j : ℕ => j % 7) 32).2.1 ∧
    ((scan_group (fun j : ℕ => j % 7) 32).2.1 = 0 →
      bit_count (scan_group (fun j : ℕ => j % 7) 32).2.1 = 0) ∧
    (scan_group (fun j : ℕ => j % 7) 32).2.1
      ≤ 2 ^ bit_count (scan_group (fun j : ℕ => j % 7) 32).2.1 - 1) :=
  ⟨by decide, C8_scan_correct (fun j : ℕ => j % 7) (by decide)⟩

/-! ## Evaluation lemmas for the C1 input -/

theorem rne_zero : rne 0 = 0 := by
  norm_num [rne]

theorem c1_quant_zero (k : ℕ) : quant_at c1_data 1 0 k = 0 := by
  have h32 : QUANT_GROUP_SIZE = 32 := rfl
  have hmod : k % QUANT_GROUP_SIZE < 32 := h32 ▸ Nat.mod_lt k (by omega)
  have hne : k % QUANT_GROUP_SIZE ≠ 32 := by omega
  simp only [quant_at, compress_float_index, Nat.zero_mul, Nat.zero_add, c1_data, hne,
    if_false, mul_one]
  exact rne_zero

theorem c1_zig_zero (k : ℕ) : zig_at c1_data 1 0 k = 0 := by
  by_cases hk : k = 0 <;>
    · simp only [zig_at, prev_quant_at, hk, if_true, if_false, c1_quant_zero, sub_zero, sub_self]
      decide

theorem scan_group_all_zero (r : ℕ → ℕ) (n : ℕ) (h : ∀ j, j < n → r j = 0) :
    scan_group r n = (0, 0, 0) := by
  induction n with
  | zero => rfl
  | succ n ih =>
    have hr : r n = 0 := h n (Nat.lt_succ_self n)
    have hs : scan_group r n = (0, 0, 0) := ih (fun j hj => h j (Nat.lt_succ_of_lt hj))
    simp [scan_group, hs, scan_step, hr]

theorem c1_group_params (g : ℕ) : group_params c1_data 1 0 g = ⟨0, 0, 0⟩ := by
  have hs : scan_group (group_residual c1_data 1 0 g) QUANT_GROUP_SIZE = (0, 0, 0) :=
    scan_group_all_zero _ _ (fun j _ => c1_zig_zero (g * QUANT_GROUP_SIZE + j))
  simp only [group_params, hs]
  rfl

theorem c1_decode_residual_zero (packed : List ℕ) (k : ℕ) :
    decode_residual (fun g => group_params c1_data 1 0 g) packed k = 0 := by
  simp only [decode_residual, c1_group_params]
  by_cases hk : k % QUANT_GROUP_SIZE = 0 <;>
    simp [decode_group_residuals, Function.update, hk, decode_max_quant, U32]

theorem c1_decoded_quant_zero (packed : List ℕ) (k : ℕ) :
    decoded_quant (fun g => group_params c1_data 1 0 g) packed k = 0 := by
  induction k with
  | zero =>
    simp only [decoded_quant, c1_decode_residual_zero]
    decide
  | succ k ih =>
    simp only [decoded_quant, c1_decode_residual_zero, ih]
    decide

/-- C1: the claim fails on the code. With the input that is 100 at float
index 32 and 0 elsewhere and `epsilon = 1` (one block, arithmetic exact
in `float`), the compress kernel's float indexing (line 437, which drops
the group index) never reads index 32, so the round trip of the two
kernels returns 0 at position 32 while the original float is 100 — an
error of 100 > 1 = epsilon. -/
theorem C1_roundtrip_exceeds_epsilon :
    thread0_roundtrip c1_data 1 32 = 0 ∧
    c1_data 32 = 100 ∧
    ¬ |thread0_roundtrip c1_data 1 32 - c1_data 32| ≤ 1 := by
  have hinv : (1 : ℚ) / 1 = 1 := by norm_num
  have h1 : thread0_roundtrip c1_data 1 32 = 0 := by
    unfold thread0_roundtrip
    rw [hinv, c1_decoded_quant_zero]
    norm_num
  have h2 : c1_data 32 = 100 := by norm_num [c1_data]
  refine ⟨h1, h2, ?_⟩
  rw [h1, h2]
  norm_num

/-- C10: the claim fails on the code. The behavior `zstd_fill_then_stall`
satisfies the streaming contract, yet with the loop target produced by a
header whose `block_used_words[0] = 40000` — larger than the output
buffer's `block_bytes` capacity — the guard `output.pos < target` stays
true forever, the call never errors and never returns 0, so the per-block
loop of lines 750-754 never exits. -/
theorem C10_decompress_loop_never_exits :
    zstd_stream_contract (zstd_fill_then_stall c10_block_bytes) c10_block_bytes 200000 ∧
    c10_block_bytes < c10_target ∧
    ¬ decompress_loop_exits (zstd_fill_then_stall c10_block_bytes) c10_target (0, 0) := by
  refine ⟨?_, by decide, ?_⟩
  · intro s h1 h2
    exact ⟨h1, le_rfl, le_rfl, h2⟩
  · have hstate : ∀ n,
        (decompress_loop_state (zstd_fill_then_stall c10_block_bytes) (0, 0) n).1
          ≤ c10_block_bytes := by
      intro n
      cases n with
      | zero => exact Nat.zero_le _
      | succ n => exact le_rfl
    rintro ⟨n, h | h | h⟩
    · have := hstate n
      have hlt : c10_block_bytes < c10_target := by decide
      omega
    · simp [zstd_fill_then_stall] at h
    · simp [zstd_fill_then_stall] at h
